import Mathlib

/-!
# Verification of the length-bucketed batching pipeline of `sequence-models`

The repository's notebooks prepare variable-length movie-review token
sequences for fixed-shape batch processing through torchtext's
`data.BucketIterator.splits` (called with `sort_key = fun x => len x.text`),
pad each batch with the vocabulary's `<pad>` token, build the vocabulary
with `TEXT.build_vocab(train, max_size = 25000)`, and then run the
`train` / `evaluate` loops defined in the notebooks.

The bucketing, padding and vocabulary construction live in the torchtext
library, outside this repository's sources; they are modelled here from the
specification's description of the algorithm (chunk in shuffled order, sort
each chunk by length, slice into batches, shuffle batch order).  The
`train` and `evaluate` loops are translated directly from the notebook
sources.
-/

open List

namespace SentimentBatching

/-- An example: an immutable pair of a token-id sequence and a label,
as produced by `data.Field` / `data.LabelField` numericalization. -/
structure Example where
  text : List Nat
  label : Nat
deriving DecidableEq

/-- The sort key used by the notebooks: `sort_key = fun x => len x.text`. -/
def sortKey (e : Example) : Nat := e.text.length

/-- torchtext reserves id 0 for the unknown token (`itos[0] = "<unk>"`). -/
def unkId : Nat := 0

/-- torchtext reserves id 1 for the padding token. -/
def padId : Nat := 1

/-! ## A seeded shuffle (linear congruential generator + selection) -/

/-- A linear congruential pseudo-random step, standing in for the
process-wide random state seeded by `torch.manual_seed(SEED)`. -/
def lcg (s : Nat) : Nat := (s * 1103515245 + 12345) % 2147483648

/-- Fuel-indexed selection shuffle: repeatedly pick the element at a
pseudo-random index and recurse on the remainder. -/
def shuffleAux {α : Type} : Nat → Nat → List α → List α
  | _, _, [] => []
  | _, 0, a :: t => a :: t
  | s, n + 1, a :: t =>
      (a :: t).getD (s % (t.length + 1)) a ::
        shuffleAux (lcg s) n ((a :: t).eraseIdx (s % (t.length + 1)))

/-- Seeded shuffle of a list. -/
def shuffle {α : Type} (s : Nat) (l : List α) : List α :=
  shuffleAux s l.length l

theorem getD_cons_eraseIdx_perm {α : Type} (l : List α) (d : α) (i : Nat)
    (h : i < l.length) : l.getD i d :: l.eraseIdx i ~ l := by
  induction l generalizing i with
  | nil => simp at h
  | cons a t ih =>
    cases i with
    | zero => simp
    | succ j =>
      have hj : j < t.length := by simpa using h
      have hperm := ih j hj
      have h1 : (a :: t).getD (j + 1) d = t.getD j d := by simp [List.getD]
      have h2 : (a :: t).eraseIdx (j + 1) = a :: t.eraseIdx j := rfl
      rw [h1, h2]
      exact (Perm.swap a (t.getD j d) (t.eraseIdx j)).trans (Perm.cons a hperm)

theorem shuffleAux_perm {α : Type} (n : Nat) :
    ∀ (s : Nat) (l : List α), shuffleAux s n l ~ l := by
  induction n with
  | zero => intro s l; cases l <;> simp [shuffleAux]
  | succ n ih =>
    intro s l
    cases l with
    | nil => simp [shuffleAux]
    | cons a t =>
      have hi : s % (t.length + 1) < (a :: t).length := by
        simp [Nat.mod_lt]
      calc shuffleAux s (n + 1) (a :: t)
          = (a :: t).getD (s % (t.length + 1)) a ::
              shuffleAux (lcg s) n ((a :: t).eraseIdx (s % (t.length + 1))) := rfl
        _ ~ (a :: t).getD (s % (t.length + 1)) a ::
              (a :: t).eraseIdx (s % (t.length + 1)) := Perm.cons _ (ih _ _)
        _ ~ a :: t := getD_cons_eraseIdx_perm _ _ _ hi

theorem shuffle_perm {α : Type} (s : Nat) (l : List α) : shuffle s l ~ l :=
  shuffleAux_perm l.length s l

theorem shuffle_length {α : Type} (s : Nat) (l : List α) :
    (shuffle s l).length = l.length :=
  (shuffle_perm s l).length_eq

/-! ## Chunking a list into consecutive pieces of a given size -/

/-- Fuel-indexed chunking: take `n` elements at a time. -/
def chunksOfAux {α : Type} (n : Nat) : Nat → List α → List (List α)
  | _, [] => []
  | 0, a :: t => [a :: t]
  | fuel + 1, a :: t => (a :: t).take n :: chunksOfAux n fuel ((a :: t).drop n)

/-- Split a list into consecutive chunks of size `n` (last chunk may be
shorter). -/
def chunksOf {α : Type} (n : Nat) (l : List α) : List (List α) :=
  chunksOfAux n l.length l

theorem chunksOfAux_flatten {α : Type} (n : Nat) :
    ∀ (fuel : Nat) (l : List α), (chunksOfAux n fuel l).flatten = l := by
  intro fuel
  induction fuel with
  | zero => intro l; cases l <;> simp [chunksOfAux]
  | succ fuel ih =>
    intro l
    cases l with
    | nil => simp [chunksOfAux]
    | cons a t =>
      show (a :: t).take n ++ (chunksOfAux n fuel ((a :: t).drop n)).flatten = a :: t
      rw [ih]
      exact List.take_append_drop n (a :: t)

theorem chunksOf_flatten {α : Type} (n : Nat) (l : List α) :
    (chunksOf n l).flatten = l :=
  chunksOfAux_flatten n l.length l

theorem chunksOfAux_subset {α : Type} (n : Nat) :
    ∀ (fuel : Nat) (l : List α), ∀ c ∈ chunksOfAux n fuel l, c ⊆ l := by
  intro fuel
  induction fuel with
  | zero =>
    intro l c hc
    cases l with
    | nil => simp [chunksOfAux] at hc
    | cons a t =>
      simp only [chunksOfAux, List.mem_singleton] at hc
      exact hc ▸ List.Subset.refl _
  | succ fuel ih =>
    intro l c hc
    cases l with
    | nil => simp [chunksOfAux] at hc
    | cons a t =>
      simp only [chunksOfAux, List.mem_cons] at hc
      rcases hc with h | h
      · exact h ▸ List.take_subset n (a :: t)
      · exact (ih _ c h).trans (List.drop_subset n (a :: t))

theorem chunksOfAux_length_le {α : Type} (n : Nat) (hn : 0 < n) :
    ∀ (fuel : Nat) (l : List α), l.length ≤ fuel →
      ∀ c ∈ chunksOfAux n fuel l, c.length ≤ n := by
  intro fuel
  induction fuel with
  | zero =>
    intro l hl c hc
    have : l = [] := List.eq_nil_of_length_eq_zero (Nat.le_zero.mp hl)
    subst this
    simp [chunksOfAux] at hc
  | succ fuel ih =>
    intro l hl c hc
    cases l with
    | nil => simp [chunksOfAux] at hc
    | cons a t =>
      simp only [chunksOfAux, List.mem_cons] at hc
      rcases hc with h | h
      · subst h
        simp only [List.length_take]
        exact Nat.min_le_left _ _
      · have hd : ((a :: t).drop n).length ≤ fuel := by
          simp only [List.length_drop, List.length_cons]
          have hlen : t.length + 1 ≤ fuel + 1 := by simpa using hl
          omega
        exact ih _ hd c h

theorem chunksOf_length_le {α : Type} (n : Nat) (hn : 0 < n) (l : List α) :
    ∀ c ∈ chunksOf n l, c.length ≤ n :=
  chunksOfAux_length_le n hn l.length l (Nat.le_refl _)

/-- The list of batch sizes produced by chunking a list of length `m` into
pieces of size `n`. -/
def sizesOf (n m : Nat) : List Nat :=
  List.replicate (m / n) n ++ (if m % n = 0 then [] else [m % n])

theorem sizesOf_step (n m : Nat) (hn : 0 < n) (hm : 0 < m) :
    min n m :: sizesOf n (m - n) = sizesOf n m := by
  rcases Nat.lt_or_ge m n with hlt | hge
  · have h1 : min n m = m := by omega
    have h2 : m - n = 0 := by omega
    have hdiv : m / n = 0 := Nat.div_eq_of_lt hlt
    have hmod : m % n = m := Nat.mod_eq_of_lt hlt
    have hne : ¬ m = 0 := by omega
    simp [sizesOf, h1, h2, hdiv, hmod, hne]
  · have h1 : min n m = n := by omega
    have hdiv : m / n = (m - n) / n + 1 := Nat.div_eq_sub_div hn hge
    have hmod : m % n = (m - n) % n := Nat.mod_eq_sub_mod hge
    simp [sizesOf, h1, hdiv, hmod, List.replicate_succ]

theorem chunksOfAux_map_length {α : Type} (n : Nat) (hn : 0 < n) :
    ∀ (fuel : Nat) (l : List α), l.length ≤ fuel →
      (chunksOfAux n fuel l).map List.length = sizesOf n l.length := by
  intro fuel
  induction fuel with
  | zero =>
    intro l hl
    have : l = [] := List.eq_nil_of_length_eq_zero (Nat.le_zero.mp hl)
    subst this
    simp [chunksOfAux, sizesOf]
  | succ fuel ih =>
    intro l hl
    cases l with
    | nil => simp [chunksOfAux, sizesOf]
    | cons a t =>
      show ((a :: t).take n).length ::
          (chunksOfAux n fuel ((a :: t).drop n)).map List.length
          = sizesOf n (a :: t).length
      have hd : ((a :: t).drop n).length ≤ fuel := by
        simp only [List.length_drop, List.length_cons]
        have hlen : t.length + 1 ≤ fuel + 1 := by simpa using hl
        omega
      rw [ih _ hd, List.length_drop, List.length_take, List.length_cons]
      exact sizesOf_step n (t.length + 1) hn (Nat.succ_pos _)

theorem chunksOf_map_length {α : Type} (n : Nat) (hn : 0 < n) (l : List α) :
    (chunksOf n l).map List.length = sizesOf n l.length :=
  chunksOfAux_map_length n hn l.length l (Nat.le_refl _)

theorem chunksOfAux_map_map {α β : Type} (f : α → β) (n : Nat) :
    ∀ (fuel : Nat) (l : List α),
      (chunksOfAux n fuel l).map (List.map f) = chunksOfAux n fuel (l.map f) := by
  intro fuel
  induction fuel with
  | zero => intro l; cases l <;> simp [chunksOfAux]
  | succ fuel ih =>
    intro l
    cases l with
    | nil => simp [chunksOfAux]
    | cons a t =>
      show ((a :: t).take n).map f ::
          (chunksOfAux n fuel ((a :: t).drop n)).map (List.map f)
          = chunksOfAux n (fuel + 1) ((a :: t).map f)
      rw [ih]
      simp [chunksOfAux, List.map_take, List.map_drop]

theorem chunksOf_map {α β : Type} (f : α → β) (n : Nat) (l : List α) :
    (chunksOf n l).map (List.map f) = chunksOf n (l.map f) := by
  unfold chunksOf
  rw [chunksOfAux_map_map, List.length_map]

theorem chunksOf_eq_single {α : Type} (n : Nat) (l : List α)
    (hne : l ≠ []) (hlen : l.length ≤ n) : chunksOf n l = [l] := by
  cases l with
  | nil => exact absurd rfl hne
  | cons a t =>
    show chunksOfAux n (t.length + 1) (a :: t) = [a :: t]
    show (a :: t).take n :: chunksOfAux n t.length ((a :: t).drop n) = [a :: t]
    rw [List.take_of_length_le hlen, List.drop_eq_nil_of_le hlen]
    cases t <;> rfl

/-! ## Sorting a chunk by sequence length -/

/-- The ordering induced by the notebooks' sort key. -/
def lenLE (a b : Example) : Prop := sortKey a ≤ sortKey b

instance : DecidableRel lenLE :=
  fun a b => inferInstanceAs (Decidable (sortKey a ≤ sortKey b))

instance : IsTotal Example lenLE := ⟨fun a b => Nat.le_total (sortKey a) (sortKey b)⟩

instance : IsTrans Example lenLE := ⟨fun _ _ _ h1 h2 => Nat.le_trans h1 h2⟩

/-- Sort a chunk of examples by sequence length. -/
def sortByLen (l : List Example) : List Example := l.insertionSort lenLE

theorem sortByLen_perm (l : List Example) : sortByLen l ~ l :=
  List.perm_insertionSort lenLE l

theorem sortByLen_sorted (l : List Example) : (sortByLen l).Sorted lenLE :=
  List.sorted_insertionSort lenLE l

theorem sortByLen_length (l : List Example) : (sortByLen l).length = l.length :=
  (sortByLen_perm l).length_eq

/-! ## Length statistics of a group of examples -/

/-- The maximum sequence length in a group of examples (0 for an empty
group); this is the length every sequence of the batch is padded to. -/
def maxLen (b : List Example) : Nat := (b.map sortKey).foldr max 0

/-- The minimum sequence length in a group of examples (0 for an empty
group). -/
def minLen : List Example → Nat
  | [] => 0
  | e :: es => (es.map sortKey).foldr min (sortKey e)

/-- The spread of sequence lengths within a group: a bound on the padding
waste, standing in for the spec's "length variance". -/
def lenSpread (b : List Example) : Nat := maxLen b - minLen b

theorem le_foldrMax (l : List Nat) (z x : Nat) (hx : x ∈ l) :
    x ≤ l.foldr max z := by
  induction l with
  | nil => simp at hx
  | cons a t ih =>
    rcases List.mem_cons.mp hx with h | h
    · subst h; exact Nat.le_max_left _ _
    · exact Nat.le_trans (ih h) (Nat.le_max_right _ _)

theorem foldrMax_le (l : List Nat) (z m : Nat) (hz : z ≤ m)
    (h : ∀ x ∈ l, x ≤ m) : l.foldr max z ≤ m := by
  induction l with
  | nil => exact hz
  | cons a t ih =>
    exact Nat.max_le.mpr ⟨h a (List.mem_cons_self a t), ih fun x hx => h x (List.mem_cons_of_mem a hx)⟩

theorem foldrMin_le (l : List Nat) (z : Nat) : l.foldr min z ≤ z := by
  induction l with
  | nil => exact Nat.le_refl z
  | cons a t ih => exact Nat.le_trans (Nat.min_le_right _ _) ih

theorem foldrMin_le_of_mem (l : List Nat) (z x : Nat) (hx : x ∈ l) :
    l.foldr min z ≤ x := by
  induction l with
  | nil => simp at hx
  | cons a t ih =>
    rcases List.mem_cons.mp hx with h | h
    · subst h; exact Nat.min_le_left _ _
    · exact Nat.le_trans (Nat.min_le_right _ _) (ih h)

theorem le_foldrMin (l : List Nat) (z m : Nat) (hz : m ≤ z)
    (h : ∀ x ∈ l, m ≤ x) : m ≤ l.foldr min z := by
  induction l with
  | nil => exact hz
  | cons a t ih =>
    exact Nat.le_min.mpr ⟨h a (List.mem_cons_self a t), ih fun x hx => h x (List.mem_cons_of_mem a hx)⟩

theorem sortKey_le_maxLen {e : Example} {b : List Example} (he : e ∈ b) :
    sortKey e ≤ maxLen b :=
  le_foldrMax _ _ _ (List.mem_map_of_mem sortKey he)

theorem minLen_le_sortKey {e : Example} {b : List Example} (he : e ∈ b) :
    minLen b ≤ sortKey e := by
  cases b with
  | nil => simp at he
  | cons a t =>
    rcases List.mem_cons.mp he with h | h
    · subst h; exact foldrMin_le _ _
    · exact foldrMin_le_of_mem _ _ _ (List.mem_map_of_mem sortKey h)

theorem lenSpread_mono {b c : List Example} (h : ∀ e ∈ b, e ∈ c) :
    lenSpread b ≤ lenSpread c := by
  cases b with
  | nil => simp [lenSpread, maxLen, minLen]
  | cons a t =>
    have hmax : maxLen (a :: t) ≤ maxLen c := by
      unfold maxLen
      refine foldrMax_le _ _ _ (Nat.zero_le _) ?_
      intro x hx
      rcases List.mem_map.mp hx with ⟨e, he, rfl⟩
      exact sortKey_le_maxLen (h e he)
    have hmin : minLen c ≤ minLen (a :: t) := by
      show minLen c ≤ (t.map sortKey).foldr min (sortKey a)
      refine le_foldrMin _ _ _ (minLen_le_sortKey (h a (List.mem_cons_self a t))) ?_
      intro x hx
      rcases List.mem_map.mp hx with ⟨e, he, rfl⟩
      exact minLen_le_sortKey (h e (List.mem_cons_of_mem a he))
    unfold lenSpread
    omega

/-! ## The bucketed batch sampler, modelled from the spec -/

/-- Modelled from the spec: the batch partition of one pass of torchtext's
`BucketIterator` (the library code is not part of this repository).
Following §4.1 of the spec: (1) partition the examples, drawn in shuffled
order, into chunks of size `B * K`; (2) sort each chunk by length;
(3) slice each sorted chunk into batches of size `B`.  The batch order is
shuffled afterwards by `onePass`. -/
def slicedBatches (B K s : Nat) (exs : List Example) : List (List Example) :=
  (((chunksOf (B * K) (shuffle s exs)).map sortByLen).map (chunksOf B)).flatten

/-- Modelled from the spec: one full pass of the bucketed batch sampler,
yielding the batches of `slicedBatches` in shuffled order. -/
def onePass (B K s : Nat) (exs : List Example) : List (List Example) :=
  shuffle (lcg s) (slicedBatches B K s exs)

/-! ## Padding a batch -/

/-- Right-pad a token sequence with the `PAD` id up to length `L`. -/
def padTo (L : Nat) (xs : List Nat) : List Nat :=
  xs ++ List.replicate (L - xs.length) padId

/-- A materialized batch: the 2-D array of padded token ids, the parallel
label sequence, and the original per-example lengths. -/
structure Batch where
  texts : List (List Nat)
  labels : List Nat
  lens : List Nat
deriving DecidableEq

/-- Modelled from the spec: batch materialization as performed by
`data.Field(batch_first=True)` numericalization — every sequence is
right-padded with `PAD` to the longest length in the batch, labels are
kept as a parallel unpadded sequence, original lengths are recorded. -/
def mkBatch (b : List Example) : Batch :=
  { texts := b.map (fun e => padTo (maxLen b) e.text)
  , labels := b.map Example.label
  , lens := b.map (fun e => e.text.length) }

/-- One pass of the sampler, with every batch materialized and padded. -/
def passBatches (B K s : Nat) (exs : List Example) : List Batch :=
  (onePass B K s exs).map mkBatch

/-- The sampler object: an explicit batch size, chunk multiplier, seed and
example collection, per §9 of the spec. -/
structure BucketSampler where
  batchSize : Nat
  chunkMult : Nat
  seed : Nat
  examples : List Example
deriving DecidableEq

/-- Modelled from the spec: sampler construction validates its
configuration; a non-positive batch size is reported to the caller as a
configuration error rather than deferred or silently ignored. -/
def mkSampler (B : Int) (K : Nat) (seed : Nat) (exs : List Example) :
    Except String BucketSampler :=
  if B ≤ 0 then Except.error "batch size must be positive"
  else Except.ok ⟨B.toNat, K, seed, exs⟩

/-- Run one pass of a constructed sampler. -/
def BucketSampler.pass (smp : BucketSampler) : List Batch :=
  passBatches smp.batchSize smp.chunkMult smp.seed smp.examples

/-! ## Coverage of one pass -/

theorem flatten_map_perm {α : Type} (f : List α → List α)
    (hf : ∀ c, f c ~ c) (L : List (List α)) : (L.map f).flatten ~ L.flatten := by
  induction L with
  | nil => rfl
  | cons c cs ih =>
    simp only [List.map_cons, List.flatten_cons]
    exact (hf c).append ih

theorem flatten_map_chunksOf {α : Type} (B : Nat) (L : List (List α)) :
    ((L.map (chunksOf B)).flatten).flatten = L.flatten := by
  induction L with
  | nil => rfl
  | cons c cs ih =>
    simp only [List.map_cons, List.flatten_cons, List.flatten_append, ih,
      chunksOf_flatten]

theorem slicedBatches_flatten_perm (B K s : Nat) (exs : List Example) :
    (slicedBatches B K s exs).flatten ~ exs := by
  unfold slicedBatches
  rw [flatten_map_chunksOf]
  calc ((chunksOf (B * K) (shuffle s exs)).map sortByLen).flatten
      ~ (chunksOf (B * K) (shuffle s exs)).flatten :=
        flatten_map_perm sortByLen sortByLen_perm _
    _ = shuffle s exs := chunksOf_flatten _ _
    _ ~ exs := shuffle_perm s exs

theorem onePass_flatten_perm (B K s : Nat) (exs : List Example) :
    (onePass B K s exs).flatten ~ exs :=
  ((shuffle_perm (lcg s) (slicedBatches B K s exs)).flatten).trans
    (slicedBatches_flatten_perm B K s exs)

/-! ## Batch sizes of one pass -/

theorem sizesOf_compose (B K N : Nat) (hB : 0 < B) (hK : 0 < K) :
    ((sizesOf (B * K) N).map (sizesOf B)).flatten = sizesOf B N := by
  have hBK : 0 < B * K := Nat.mul_pos hB hK
  have hfull : sizesOf B (B * K) = List.replicate K B := by
    have h1 : B * K / B = K := Nat.mul_div_cancel_left K hB
    have h2 : B * K % B = 0 := Nat.mul_mod_right B K
    simp [sizesOf, h1, h2]
  have hflat : ∀ m : Nat, (List.replicate m (List.replicate K B)).flatten
      = List.replicate (m * K) B := by
    intro m
    induction m with
    | zero => simp
    | succ m ih =>
      rw [List.replicate_succ, List.flatten_cons, ih,
        show (m + 1) * K = K + m * K from by rw [Nat.succ_mul, Nat.add_comm],
        List.replicate_add]
  have key : ∀ q r, r < B * K →
      ((sizesOf (B * K) (B * K * q + r)).map (sizesOf B)).flatten
        = sizesOf B (B * K * q + r) := by
    intro q r hrlt
    have hdivBK : (B * K * q + r) / (B * K) = q := by
      rw [Nat.add_comm, Nat.add_mul_div_left _ _ hBK, Nat.div_eq_of_lt hrlt,
        Nat.zero_add]
    have hmodBK : (B * K * q + r) % (B * K) = r := by
      rw [Nat.add_comm, Nat.add_mul_mod_self_left]
      exact Nat.mod_eq_of_lt hrlt
    have hdivB : (B * K * q + r) / B = K * q + r / B := by
      rw [Nat.mul_assoc]
      exact Nat.mul_add_div hB _ _
    have hmodB : (B * K * q + r) % B = r % B := by
      rw [Nat.mul_assoc]
      exact Nat.mul_add_mod B (K * q) r
    have hexp : sizesOf (B * K) (B * K * q + r)
        = List.replicate q (B * K) ++ (if r = 0 then [] else [r]) := by
      simp only [sizesOf, hdivBK, hmodBK]
    rw [hexp, List.map_append, List.map_replicate, hfull, List.flatten_append,
      hflat q]
    rcases Nat.eq_zero_or_pos r with hr0 | hrpos
    · subst hr0
      have h1 : B * K * q / B = K * q := by
        rw [Nat.mul_assoc]
        exact Nat.mul_div_cancel_left _ hB
      have h2 : B * K * q % B = 0 := by
        rw [Nat.mul_assoc]
        exact Nat.mul_mod_right B (K * q)
      simp [sizesOf, h1, h2, Nat.mul_comm q K]
    · have hne : ¬ r = 0 := hrpos.ne'
      rw [if_neg hne]
      show List.replicate (q * K) B ++ ([sizesOf B r].flatten)
          = sizesOf B (B * K * q + r)
      have hsing : [sizesOf B r].flatten = sizesOf B r := by
        simp
      rw [hsing]
      simp only [sizesOf, hdivB, hmodB]
      rw [← List.append_assoc, ← List.replicate_add,
        show q * K + r / B = K * q + r / B from by rw [Nat.mul_comm]]
  have h := key (N / (B * K)) (N % (B * K)) (Nat.mod_lt N hBK)
  rwa [Nat.div_add_mod] at h

theorem slicedBatches_map_length (B K s : Nat) (exs : List Example)
    (hB : 0 < B) (hK : 0 < K) :
    (slicedBatches B K s exs).map List.length = sizesOf B exs.length := by
  have hBK : 0 < B * K := Nat.mul_pos hB hK
  unfold slicedBatches
  rw [List.map_flatten, List.map_map, List.map_map]
  have hcong : ∀ c ∈ chunksOf (B * K) (shuffle s exs),
      ((List.map List.length ∘ chunksOf B) ∘ sortByLen) c
        = (sizesOf B ∘ List.length) c := by
    intro c _
    show (chunksOf B (sortByLen c)).map List.length = sizesOf B c.length
    rw [chunksOf_map_length B hB, sortByLen_length]
  rw [List.map_congr_left hcong, ← List.map_map,
    chunksOf_map_length (B * K) hBK, shuffle_length,
    sizesOf_compose B K exs.length hB hK]

theorem onePass_map_length_perm (B K s : Nat) (exs : List Example)
    (hB : 0 < B) (hK : 0 < K) :
    (onePass B K s exs).map List.length ~ sizesOf B exs.length := by
  calc (onePass B K s exs).map List.length
      ~ (slicedBatches B K s exs).map List.length :=
        (shuffle_perm (lcg s) (slicedBatches B K s exs)).map List.length
    _ = sizesOf B exs.length := slicedBatches_map_length B K s exs hB hK

/-! ## The training and evaluation loops (translated from the notebooks)

The numeric tensor computations (forward pass, loss, accuracy, gradient
step) are external framework collaborators; they are abstracted as opaque
functions over an abstract parameter type `P` and prediction type `Pred`,
with metric values in `Rat`.  The loop structure, the accumulation of
`epoch_loss` / `epoch_acc` and the final division by `len(iterator)` are
translated directly from the notebooks' `train` and `evaluate`. -/

/-- The external model/optimizer collaborators: `forwardFn p texts` is
`model(batch.text)` at parameters `p`, and `stepFn p b` is the parameter
update `loss.backward(); optimizer.step()` performs for batch `b`. -/
structure ModelOps (P Pred : Type) where
  forwardFn : P → List (List Nat) → Pred
  stepFn : P → Batch → P

/-- The mutable state of one epoch loop: the model parameters and the
running `epoch_loss` / `epoch_acc` accumulators. -/
structure LoopState (P : Type) where
  params : P
  epochLoss : Rat
  epochAcc : Rat

/-- One iteration of the `train` loop body: forward, loss, accuracy,
backward + optimizer step, accumulate. -/
def trainStep {P Pred : Type} (M : ModelOps P Pred)
    (crit accf : Pred → List Nat → Rat) (st : LoopState P) (b : Batch) :
    LoopState P :=
  { params := M.stepFn st.params b
  , epochLoss := st.epochLoss + crit (M.forwardFn st.params b.texts) b.labels
  , epochAcc := st.epochAcc + accf (M.forwardFn st.params b.texts) b.labels }

/-- One iteration of the `evaluate` loop body: forward, loss, accuracy,
accumulate — under `torch.no_grad()`, with no optimizer step, so the
parameters are left untouched. -/
def evalStep {P Pred : Type} (M : ModelOps P Pred)
    (crit accf : Pred → List Nat → Rat) (st : LoopState P) (b : Batch) :
    LoopState P :=
  { st with
      epochLoss := st.epochLoss + crit (M.forwardFn st.params b.texts) b.labels
      epochAcc := st.epochAcc + accf (M.forwardFn st.params b.texts) b.labels }

/-- The final `return epoch_loss / len(iterator), epoch_acc /
len(iterator)`: an unguarded division that raises on an empty iterator,
modelled as `none`. -/
def meanPair (st : LoopState P) (n : Nat) : Option (Rat × Rat) :=
  if n = 0 then none else some (st.epochLoss / (n : Rat), st.epochAcc / (n : Rat))

/-- The notebooks' `train(model, iterator, optimizer, criterion)`,
returning the final parameters and the epoch metrics. -/
def train {P Pred : Type} (M : ModelOps P Pred)
    (crit accf : Pred → List Nat → Rat) (p : P) (batches : List Batch) :
    P × Option (Rat × Rat) :=
  let st := batches.foldl (trainStep M crit accf) ⟨p, 0, 0⟩
  (st.params, meanPair st batches.length)

/-- The notebooks' `evaluate(model, iterator, criterion)`, returning the
(unchanged) parameters and the epoch metrics. -/
def evaluate {P Pred : Type} (M : ModelOps P Pred)
    (crit accf : Pred → List Nat → Rat) (p : P) (batches : List Batch) :
    P × Option (Rat × Rat) :=
  let st := batches.foldl (evalStep M crit accf) ⟨p, 0, 0⟩
  (st.params, meanPair st batches.length)

/-- The per-batch (loss, accuracy) values observed by the `train` loop,
following the parameter trajectory of the optimizer steps. -/
def trainTrace {P Pred : Type} (M : ModelOps P Pred)
    (crit accf : Pred → List Nat → Rat) : P → List Batch → List (Rat × Rat)
  | _, [] => []
  | p, b :: bs =>
      (crit (M.forwardFn p b.texts) b.labels, accf (M.forwardFn p b.texts) b.labels)
        :: trainTrace M crit accf (M.stepFn p b) bs

theorem foldl_evalStep_params {P Pred : Type} (M : ModelOps P Pred)
    (crit accf : Pred → List Nat → Rat) (bs : List Batch) :
    ∀ st : LoopState P, (bs.foldl (evalStep M crit accf) st).params = st.params := by
  induction bs with
  | nil => intro st; rfl
  | cons b bs ih =>
    intro st
    rw [List.foldl_cons, ih]
    rfl

theorem foldl_evalStep_acc {P Pred : Type} (M : ModelOps P Pred)
    (crit accf : Pred → List Nat → Rat) (bs : List Batch) :
    ∀ st : LoopState P,
      (bs.foldl (evalStep M crit accf) st).epochLoss
          = st.epochLoss + (bs.map (fun b => crit (M.forwardFn st.params b.texts) b.labels)).sum
      ∧ (bs.foldl (evalStep M crit accf) st).epochAcc
          = st.epochAcc + (bs.map (fun b => accf (M.forwardFn st.params b.texts) b.labels)).sum := by
  induction bs with
  | nil => intro st; simp
  | cons b bs ih =>
    intro st
    rw [List.foldl_cons]
    have h := ih (evalStep M crit accf st b)
    have hp : (evalStep M crit accf st b).params = st.params := rfl
    rw [hp] at h
    constructor
    · rw [h.1]
      show st.epochLoss + _ + _ = _
      simp [List.sum_cons]
      ring
    · rw [h.2]
      show st.epochAcc + _ + _ = _
      simp [List.sum_cons]
      ring

theorem foldl_trainStep_acc {P Pred : Type} (M : ModelOps P Pred)
    (crit accf : Pred → List Nat → Rat) (bs : List Batch) :
    ∀ (p : P) (x y : Rat),
      (bs.foldl (trainStep M crit accf) ⟨p, x, y⟩).epochLoss
          = x + ((trainTrace M crit accf p bs).map Prod.fst).sum
      ∧ (bs.foldl (trainStep M crit accf) ⟨p, x, y⟩).epochAcc
          = y + ((trainTrace M crit accf p bs).map Prod.snd).sum := by
  induction bs with
  | nil => intro p x y; simp [trainTrace]
  | cons b bs ih =>
    intro p x y
    rw [List.foldl_cons]
    have hstep : trainStep M crit accf ⟨p, x, y⟩ b
        = ⟨M.stepFn p b,
           x + crit (M.forwardFn p b.texts) b.labels,
           y + accf (M.forwardFn p b.texts) b.labels⟩ := rfl
    rw [hstep]
    have h := ih (M.stepFn p b) (x + crit (M.forwardFn p b.texts) b.labels)
      (y + accf (M.forwardFn p b.texts) b.labels)
    constructor
    · rw [h.1]
      simp [trainTrace, List.sum_cons]
      ring
    · rw [h.2]
      simp [trainTrace, List.sum_cons]
      ring

/-! ## Vocabulary construction, modelled from the spec -/

/-- The frequency of a token across the training corpus. -/
def tokenFreq (corpus : List (List String)) (t : String) : Nat :=
  corpus.flatten.count t

/-- The distinct elements of a list, keeping the first occurrence of each
element, in first-seen order: the head is kept and every later duplicate
of it is filtered out of the recursively deduplicated tail. -/
def firstSeenList {α : Type} [DecidableEq α] : List α → List α
  | [] => []
  | a :: ts => a :: (firstSeenList ts).filter (fun v => decide (v ≠ a))

/-- The distinct tokens of the training corpus in first-seen order. -/
def firstSeen (corpus : List (List String)) : List String :=
  firstSeenList corpus.flatten

theorem mem_firstSeenList {α : Type} [DecidableEq α] {t : α} :
    ∀ {l : List α}, t ∈ firstSeenList l ↔ t ∈ l := by
  intro l
  induction l with
  | nil => simp [firstSeenList]
  | cons a ts ih =>
    rw [show firstSeenList (a :: ts)
        = a :: (firstSeenList ts).filter (fun v => decide (v ≠ a)) from rfl]
    constructor
    · intro h
      rcases List.mem_cons.mp h with h | h
      · exact h ▸ List.mem_cons_self a ts
      · exact List.mem_cons_of_mem a (ih.mp (List.mem_filter.mp h).1)
    · intro h
      rcases List.mem_cons.mp h with h | h
      · subst h
        exact List.mem_cons_self _ _
      · by_cases hta : t = a
        · subst hta
          exact List.mem_cons_self _ _
        · refine List.mem_cons_of_mem a (List.mem_filter.mpr ⟨ih.mpr h, ?_⟩)
          simp [hta]

theorem firstSeenList_nodup {α : Type} [DecidableEq α] (l : List α) :
    (firstSeenList l).Nodup := by
  induction l with
  | nil => exact List.nodup_nil
  | cons a ts ih =>
    refine List.Nodup.cons ?_ (ih.filter _)
    intro hmem
    have := (List.mem_filter.mp hmem).2
    simp at this

theorem indexOf_filter_le {α : Type} [DecidableEq α] (p : α → Bool) :
    ∀ (l : List α), l.Nodup → ∀ t u : α, t ∈ l.filter p → u ∈ l.filter p →
      (l.filter p).indexOf t ≤ (l.filter p).indexOf u →
      l.indexOf t ≤ l.indexOf u := by
  intro l
  induction l with
  | nil =>
    intro _ t u ht
    simp at ht
  | cons a ts ih =>
    intro hnd t u ht hu h
    have ha : a ∉ ts := (List.nodup_cons.mp hnd).1
    have hts : ts.Nodup := (List.nodup_cons.mp hnd).2
    by_cases hpa : p a = true
    · rw [List.filter_cons_of_pos hpa] at ht hu h
      by_cases hta : t = a
      · subst hta
        rw [List.indexOf_cons_self]
        exact Nat.zero_le _
      · have htf : t ∈ ts.filter p := by
          rcases List.mem_cons.mp ht with h' | h'
          · exact absurd h' hta
          · exact h'
        by_cases hua : u = a
        · subst hua
          rw [List.indexOf_cons_ne _ (Ne.symm hta), List.indexOf_cons_self] at h
          omega
        · have huf : u ∈ ts.filter p := by
            rcases List.mem_cons.mp hu with h' | h'
            · exact absurd h' hua
            · exact h'
          rw [List.indexOf_cons_ne _ (Ne.symm hta),
            List.indexOf_cons_ne _ (Ne.symm hua)] at h
          have hrec := ih hts t u htf huf (by omega)
          rw [List.indexOf_cons_ne _ (Ne.symm hta),
            List.indexOf_cons_ne _ (Ne.symm hua)]
          omega
    · rw [List.filter_cons_of_neg hpa] at ht hu h
      have hta : t ≠ a := fun he => ha (he ▸ (List.mem_filter.mp ht).1)
      have hua : u ≠ a := fun he => ha (he ▸ (List.mem_filter.mp hu).1)
      have hrec := ih hts t u ht hu h
      rw [List.indexOf_cons_ne _ (Ne.symm hta),
        List.indexOf_cons_ne _ (Ne.symm hua)]
      omega

/-- Positions in the first-seen deduplication respect positions of first
occurrence in the original list: earlier in `firstSeenList l` means first
seen earlier in `l`. -/
theorem firstSeenList_indexOf_le {α : Type} [DecidableEq α] :
    ∀ (l : List α) (t u : α), t ∈ firstSeenList l → u ∈ firstSeenList l →
      (firstSeenList l).indexOf t ≤ (firstSeenList l).indexOf u →
      l.indexOf t ≤ l.indexOf u := by
  intro l
  induction l with
  | nil =>
    intro t u ht
    simp [firstSeenList] at ht
  | cons a ts ih =>
    intro t u ht hu h
    rw [show firstSeenList (a :: ts)
        = a :: (firstSeenList ts).filter (fun v => decide (v ≠ a)) from rfl] at ht hu h
    by_cases hta : t = a
    · subst hta
      rw [List.indexOf_cons_self]
      exact Nat.zero_le _
    · have htF : t ∈ (firstSeenList ts).filter (fun v => decide (v ≠ a)) := by
        rcases List.mem_cons.mp ht with h' | h'
        · exact absurd h' hta
        · exact h'
      by_cases hua : u = a
      · subst hua
        rw [List.indexOf_cons_ne _ (Ne.symm hta), List.indexOf_cons_self] at h
        omega
      · have huF : u ∈ (firstSeenList ts).filter (fun v => decide (v ≠ a)) := by
          rcases List.mem_cons.mp hu with h' | h'
          · exact absurd h' hua
          · exact h'
        rw [List.indexOf_cons_ne _ (Ne.symm hta),
          List.indexOf_cons_ne _ (Ne.symm hua)] at h
        have hF := indexOf_filter_le _ (firstSeenList ts) (firstSeenList_nodup ts)
          t u htF huF (by omega)
        have hrec := ih t u (List.mem_filter.mp htF).1 (List.mem_filter.mp huF).1 hF
        rw [List.indexOf_cons_ne _ (Ne.symm hta), List.indexOf_cons_ne _ (Ne.symm hua)]
        omega

/-- The vocabulary ranking order: strictly more frequent tokens first,
frequency ties broken by first-seen order. -/
def vocabRank (corpus : List (List String)) (t u : String) : Prop :=
  tokenFreq corpus u < tokenFreq corpus t ∨
    (tokenFreq corpus t = tokenFreq corpus u ∧
      (firstSeen corpus).indexOf t ≤ (firstSeen corpus).indexOf u)

instance (corpus : List (List String)) : DecidableRel (vocabRank corpus) :=
  fun _ _ => inferInstanceAs (Decidable (_ ∨ _))

instance (corpus : List (List String)) : IsTotal String (vocabRank corpus) := by
  refine ⟨fun t u => ?_⟩
  unfold vocabRank
  rcases Nat.le_total ((firstSeen corpus).indexOf t) ((firstSeen corpus).indexOf u) with h | h <;> omega

instance (corpus : List (List String)) : IsTrans String (vocabRank corpus) := by
  refine ⟨fun t u v h1 h2 => ?_⟩
  unfold vocabRank at *
  omega

/-- Modelled from the spec: torchtext's `TEXT.build_vocab(train,
max_size=25000)` (the `Vocab` construction is library code, not part of
this repository).  The vocabulary lists the reserved `<unk>` and `<pad>`
tokens first, then the corpus tokens ranked by descending frequency with
ties broken by first-seen order, capped at `maxSize`.  Token ids are list
positions; the value is immutable once constructed. -/
def buildVocab (maxSize : Nat) (corpus : List (List String)) : List String :=
  "<unk>" :: "<pad>" :: ((firstSeen corpus).insertionSort (vocabRank corpus)).take maxSize

/-! ## Membership structure of a pass -/

theorem chunksOf_subset {α : Type} (n : Nat) (l : List α) :
    ∀ c ∈ chunksOf n l, c ⊆ l :=
  chunksOfAux_subset n l.length l

theorem mem_onePass_decomp (B K s : Nat) (exs : List Example)
    (b : List Example) (hb : b ∈ onePass B K s exs) :
    ∃ c ∈ chunksOf (B * K) (shuffle s exs), b ∈ chunksOf B (sortByLen c) := by
  have hb1 : b ∈ slicedBatches B K s exs :=
    (shuffle_perm (lcg s) (slicedBatches B K s exs)).mem_iff.mp hb
  unfold slicedBatches at hb1
  rcases List.mem_flatten.mp hb1 with ⟨bsl, hbsl, hbmem⟩
  rcases List.mem_map.mp hbsl with ⟨sc, hsc, rfl⟩
  rcases List.mem_map.mp hsc with ⟨c, hc, rfl⟩
  exact ⟨c, hc, hbmem⟩

theorem onePass_batch_length_le (B K s : Nat) (exs : List Example)
    (hB : 0 < B) : ∀ b ∈ onePass B K s exs, b.length ≤ B := by
  intro b hb
  rcases mem_onePass_decomp B K s exs b hb with ⟨c, _, hbc⟩
  exact chunksOf_length_le B hB (sortByLen c) b hbc

/-! ## Facts about the multiset of batch sizes -/

theorem countP_replicate {α : Type} (p : α → Bool) (n : Nat) (a : α) :
    (List.replicate n a).countP p = if p a then n else 0 := by
  induction n with
  | zero => simp
  | succ n ih =>
    rw [List.replicate_succ, List.countP_cons, ih]
    by_cases hpa : p a <;> simp [hpa]

theorem mem_sizesOf (B N x : Nat) (hx : x ∈ sizesOf B N) :
    x = B ∨ (x = N % B ∧ N % B ≠ 0) := by
  unfold sizesOf at hx
  rcases List.mem_append.mp hx with h | h
  · exact Or.inl (List.eq_of_mem_replicate h)
  · rcases Nat.eq_zero_or_pos (N % B) with h0 | hpos
    · rw [if_pos h0] at h
      simp at h
    · rw [if_neg hpos.ne'] at h
      rcases List.mem_singleton.mp h with rfl
      exact Or.inr ⟨rfl, hpos.ne'⟩

theorem count_sizesOf (B N : Nat) (hB : 0 < B) :
    (sizesOf B N).count B = N / B := by
  unfold sizesOf
  rw [List.count_append, List.count_replicate_self]
  rcases Nat.eq_zero_or_pos (N % B) with h0 | hpos
  · simp [h0]
  · rw [if_neg hpos.ne']
    have hne : N % B ≠ B := (Nat.mod_lt N hB).ne
    simp [List.count_cons, hne]

theorem countP_ne_sizesOf (B N : Nat) :
    (sizesOf B N).countP (fun m => decide (¬ m = B)) ≤ 1 := by
  have hsplit : (sizesOf B N).countP (fun m => decide (¬ m = B))
      = (List.replicate (N / B) B).countP (fun m => decide (¬ m = B))
        + (if N % B = 0 then ([] : List Nat) else [N % B]).countP
            (fun m => decide (¬ m = B)) := by
    unfold sizesOf
    exact List.countP_append _ _ _
  have htail : (if N % B = 0 then ([] : List Nat) else [N % B]).countP
      (fun m => decide (¬ m = B)) ≤ 1 := by
    rcases Nat.eq_zero_or_pos (N % B) with h0 | hpos
    · simp [h0]
    · rw [if_neg hpos.ne']
      exact Nat.le_trans (List.countP_le_length _) (by simp)
  rw [hsplit, countP_replicate]
  simpa using htail

theorem sizesOf_length (B N : Nat) (hB : 0 < B) :
    (sizesOf B N).length = (N + B - 1) / B := by
  have hdm := Nat.div_add_mod N B
  have hlt : N % B < B := Nat.mod_lt N hB
  have hmain : (N + B - 1) / B = N / B + if N % B = 0 then 0 else 1 := by
    rcases Nat.eq_zero_or_pos (N % B) with h0 | hpos
    · rw [if_pos h0]
      have hrw : N + B - 1 = B * (N / B) + (B - 1) := by omega
      have hsmall : (B - 1) / B = 0 := Nat.div_eq_of_lt (by omega)
      rw [hrw, Nat.mul_add_div hB, hsmall]
    · rw [if_neg hpos.ne']
      have hrw : N + B - 1 = B * (N / B) + (N % B + B - 1) := by omega
      rw [hrw, Nat.mul_add_div hB]
      have hone : (N % B + B - 1) / B = 1 :=
        Nat.div_eq_of_lt_le (by omega) (by omega)
      omega
  rw [hmain]
  unfold sizesOf
  rcases Nat.eq_zero_or_pos (N % B) with h0 | hpos
  · simp [h0]
  · simp [hpos.ne']

/-! ## Concrete data used by the scenario claim and the witnesses -/

/-- An example of the given sequence length (token id 2 repeated), as in
the spec's N=10 scenario. -/
def exC7 (n : Nat) : Example := ⟨List.replicate n 2, 1⟩

/-- The spec's scenario input: N=10 examples with lengths
[3,7,2,9,4,8,1,6,5,10]. -/
def exsC7 : List Example :=
  [exC7 3, exC7 7, exC7 2, exC7 9, exC7 4, exC7 8, exC7 1, exC7 6, exC7 5, exC7 10]

/-- A small concrete model collaborator used to instantiate the loop
theorems. -/
def demoOps : ModelOps Nat Nat :=
  ⟨fun p ts => p + ts.length, fun p b => p + b.labels.length⟩

/-- A trivial concrete metric function. -/
def zeroMetric : Nat → List Nat → Rat := fun _ _ => 0

/-- A small concrete batch. -/
def demoBatch : Batch := ⟨[[2, 2, 1]], [1], [2]⟩

/-! ## The claims -/

/-- C1: for every example set and every batch size B > 0, the union of the
examples in all batches yielded by the sampler across one pass is a
permutation of the input set — each example occurs exactly once, with no
duplicates and no omissions. -/
theorem c1_pass_coverage (B K s : Nat) (exs : List Example) (_hB : 0 < B) :
    (onePass B K s exs).flatten ~ exs :=
  onePass_flatten_perm B K s exs

theorem c1_pass_coverage_witness :
    0 < 4 ∧ ((onePass 4 3 0 exsC7).flatten ~ exsC7) :=
  ⟨by decide, c1_pass_coverage 4 3 0 exsC7 (by decide)⟩

/-- C2: one pass yields exactly ceil(N/B) batches and is then exhausted
(the pass is a finite list of that length); every batch has size at most
B; exactly floor(N/B) batches have size exactly B; at most one batch has a
size other than B, and such a batch has size N mod B; and for N = 0 the
pass is empty. -/
theorem c2_pass_sizes (B K s : Nat) (exs : List Example)
    (hB : 0 < B) (hK : 0 < K) :
    (onePass B K s exs).length = (exs.length + B - 1) / B
    ∧ (∀ b ∈ onePass B K s exs, b.length ≤ B)
    ∧ ((onePass B K s exs).map List.length).count B = exs.length / B
    ∧ (onePass B K s exs).countP (fun b => decide (¬ b.length = B)) ≤ 1
    ∧ (∀ b ∈ onePass B K s exs, b.length ≠ B → b.length = exs.length % B)
    ∧ (exs = [] → onePass B K s exs = []) := by
  have hperm := onePass_map_length_perm B K s exs hB hK
  refine ⟨?_, onePass_batch_length_le B K s exs hB, ?_, ?_, ?_, ?_⟩
  · calc (onePass B K s exs).length
        = ((onePass B K s exs).map List.length).length := (List.length_map _ _).symm
      _ = (sizesOf B exs.length).length := hperm.length_eq
      _ = (exs.length + B - 1) / B := sizesOf_length B exs.length hB
  · rw [hperm.count_eq]
    exact count_sizesOf B exs.length hB
  · have hmapcount : (onePass B K s exs).countP (fun b => decide (¬ b.length = B))
        = ((onePass B K s exs).map List.length).countP (fun m => decide (¬ m = B)) := by
      rw [List.countP_map]
      rfl
    rw [hmapcount, hperm.countP_eq]
    exact countP_ne_sizesOf B exs.length
  · intro b hb hne
    have hmem : b.length ∈ sizesOf B exs.length :=
      hperm.mem_iff.mp (List.mem_map_of_mem List.length hb)
    rcases mem_sizesOf B exs.length b.length hmem with h | h
    · exact absurd h hne
    · exact h.1
  · intro hnil
    subst hnil
    have : (onePass B K s []).map List.length ~ [] := by
      simpa [sizesOf] using hperm
    have hmapnil : (onePass B K s []).map List.length = [] := this.eq_nil
    exact List.map_eq_nil_iff.mp hmapnil

theorem c2_pass_sizes_witness :
    0 < 4 ∧ 0 < 3
    ∧ (onePass 4 3 0 exsC7).length = (exsC7.length + 4 - 1) / 4 :=
  ⟨by decide, by decide, (c2_pass_sizes 4 3 0 exsC7 (by decide) (by decide)).1⟩

/-- C3: within a materialized batch every token sequence is right-padded
with the PAD id up to the maximum original length of the batch, so all
padded sequences have identical length; labels form an unpadded parallel
sequence of length equal to the batch size; and each example's original
unpadded length is preserved and retrievable (both through the recorded
lengths and by truncating the padded sequence). -/
theorem c3_batch_padding (b : List Example) :
    (∀ t ∈ (mkBatch b).texts, t.length = maxLen b)
    ∧ (mkBatch b).labels = b.map Example.label
    ∧ (mkBatch b).labels.length = b.length
    ∧ (mkBatch b).lens = b.map (fun e => e.text.length)
    ∧ (∀ e ∈ b, (padTo (maxLen b) e.text).take e.text.length = e.text) := by
  refine ⟨?_, rfl, List.length_map b Example.label, rfl, ?_⟩
  · intro t ht
    rcases List.mem_map.mp ht with ⟨e, he, rfl⟩
    have hle : e.text.length ≤ maxLen b := sortKey_le_maxLen he
    simp [padTo]
    omega
  · intro e _
    simp [padTo]

theorem c3_batch_padding_witness :
    (mkBatch exsC7).labels = exsC7.map Example.label
    ∧ (mkBatch exsC7).lens = exsC7.map (fun e => e.text.length) :=
  ⟨(c3_batch_padding exsC7).2.1, (c3_batch_padding exsC7).2.2.2.1⟩

/-- C4: one pass partitions the (shuffle-ordered) examples into chunks of
size B*K, each chunk holds at most B*K examples, and every yielded batch
is contained in the length-sorted version of one of those chunks, so its
length spread (the stand-in for length variance) is bounded by the length
spread of the chunk it was sliced from. -/
theorem c4_length_homogeneity (B K s : Nat) (exs : List Example)
    (hB : 0 < B) (hK : 0 < K) :
    ((chunksOf (B * K) (shuffle s exs)).flatten ~ exs)
    ∧ (∀ c ∈ chunksOf (B * K) (shuffle s exs), c.length ≤ B * K)
    ∧ (∀ b ∈ onePass B K s exs, ∃ c ∈ chunksOf (B * K) (shuffle s exs),
        (∀ e ∈ b, e ∈ c) ∧ lenSpread b ≤ lenSpread c) := by
  refine ⟨?_, chunksOf_length_le (B * K) (Nat.mul_pos hB hK) _, ?_⟩
  · rw [chunksOf_flatten]
    exact shuffle_perm s exs
  · intro b hb
    rcases mem_onePass_decomp B K s exs b hb with ⟨c, hc, hbc⟩
    have hsub : ∀ e ∈ b, e ∈ c := by
      intro e he
      exact (sortByLen_perm c).mem_iff.mp
        (chunksOf_subset B (sortByLen c) _ hbc he)
    exact ⟨c, hc, hsub, lenSpread_mono hsub⟩

theorem c4_length_homogeneity_witness :
    0 < 4 ∧ 0 < 3 ∧ ((chunksOf (4 * 3) (shuffle 0 exsC7)).flatten ~ exsC7) :=
  ⟨by decide, by decide, (c4_length_homogeneity 4 3 0 exsC7 (by decide) (by decide)).1⟩

/-- C5: a second sampler built over the same input with the same seed and
configuration reproduces exactly the same batch partition and batch order;
with any other seed the batch composition may differ, but coverage and the
per-batch size bound still hold for that pass. -/
theorem c5_restartability (s1 s2 : BucketSampler)
    (hB : s1.batchSize = s2.batchSize) (hK : s1.chunkMult = s2.chunkMult)
    (hseed : s1.seed = s2.seed) (hexs : s1.examples = s2.examples) :
    s1.pass = s2.pass
    ∧ (∀ sd : Nat, 0 < s1.batchSize →
        ((onePass s1.batchSize s1.chunkMult sd s1.examples).flatten ~ s1.examples
        ∧ ∀ b ∈ onePass s1.batchSize s1.chunkMult sd s1.examples,
            b.length ≤ s1.batchSize)) := by
  constructor
  · cases s1
    cases s2
    simp only at hB hK hseed hexs
    subst hB
    subst hK
    subst hseed
    subst hexs
    rfl
  · intro sd hBpos
    exact ⟨onePass_flatten_perm _ _ _ _, onePass_batch_length_le _ _ _ _ hBpos⟩

theorem c5_restartability_witness :
    (BucketSampler.mk 4 3 7 exsC7).pass = (BucketSampler.mk 4 3 7 exsC7).pass :=
  (c5_restartability (BucketSampler.mk 4 3 7 exsC7) (BucketSampler.mk 4 3 7 exsC7)
    rfl rfl rfl rfl).1

/-- C6: for every batch size B ≤ 0, sampler construction fails immediately
with a configuration error reported to the caller: the constructor returns
the error (so no sampler exists and no batches are produced) rather than a
silent no-op or a deferred failure. -/
theorem c6_nonpositive_batch_size (B : Int) (K seed : Nat)
    (exs : List Example) (hB : B ≤ 0) :
    mkSampler B K seed exs = Except.error "batch size must be positive"
    ∧ ∀ smp : BucketSampler, mkSampler B K seed exs ≠ Except.ok smp := by
  constructor
  · simp [mkSampler, hB]
  · intro smp h
    simp [mkSampler, hB] at h

theorem c6_nonpositive_batch_size_witness :
    ((-1 : Int) ≤ 0)
    ∧ mkSampler (-1) 3 7 exsC7 = Except.error "batch size must be positive" :=
  ⟨by decide, (c6_nonpositive_batch_size (-1) 3 7 exsC7 (by decide)).1⟩

/-- C7: on the spec's scenario — N=10 examples with lengths
[3,7,2,9,4,8,1,6,5,10], B=4, K=3 (chunk size 12, one chunk covering all
examples) — every pass, for every shuffle seed, yields exactly the batch
size / padded max-length profile {(4,4), (4,8), (2,10)}: three batches of
sizes 4, 4, 2 with maximum original lengths 4, 8, 10, in some seed-dependent
order. -/
theorem c7_scenario (s : Nat) :
    (onePass 4 3 s exsC7).map (fun b => (b.length, maxLen b))
      ~ [(4, 4), (4, 8), (2, 10)] := by
  have hshuffle : shuffle s exsC7 ~ exsC7 := shuffle_perm s exsC7
  have hlen : (shuffle s exsC7).length = 10 := by
    rw [shuffle_length]
    rfl
  have hne : shuffle s exsC7 ≠ [] := by
    intro h
    rw [h] at hlen
    simp at hlen
  have hchunk : chunksOf 12 (shuffle s exsC7) = [shuffle s exsC7] :=
    chunksOf_eq_single 12 _ hne (by rw [hlen]; omega)
  have hkeys : (sortByLen (shuffle s exsC7)).map sortKey
      = [1, 2, 3, 4, 5, 6, 7, 8, 9, 10] := by
    have hsorted : ((sortByLen (shuffle s exsC7)).map sortKey).Sorted (· ≤ ·) :=
      List.Pairwise.map sortKey (fun _ _ h => h) (sortByLen_sorted (shuffle s exsC7))
    have hp : (sortByLen (shuffle s exsC7)).map sortKey
        ~ [1, 2, 3, 4, 5, 6, 7, 8, 9, 10] := by
      have h1 : (sortByLen (shuffle s exsC7)).map sortKey ~ exsC7.map sortKey :=
        ((sortByLen_perm _).trans hshuffle).map sortKey
      exact h1.trans (by decide)
    exact List.eq_of_perm_of_sorted hp hsorted (by decide)
  have hsliced : slicedBatches 4 3 s exsC7 = chunksOf 4 (sortByLen (shuffle s exsC7)) := by
    unfold slicedBatches
    rw [show (4 * 3 : Nat) = 12 from rfl, hchunk]
    simp
  have hmain : (chunksOf 4 (sortByLen (shuffle s exsC7))).map
      (fun b => (b.length, maxLen b)) = [(4, 4), (4, 8), (2, 10)] := by
    have h1 : (chunksOf 4 (sortByLen (shuffle s exsC7))).map
        (fun b => (b.length, maxLen b))
        = ((chunksOf 4 (sortByLen (shuffle s exsC7))).map (List.map sortKey)).map
            (fun ks => (ks.length, ks.foldr max 0)) := by
      rw [List.map_map]
      apply List.map_congr_left
      intro c _
      show (c.length, maxLen c) = ((c.map sortKey).length, (c.map sortKey).foldr max 0)
      rw [List.length_map]
      rfl
    rw [h1, chunksOf_map, hkeys]
    decide
  calc (onePass 4 3 s exsC7).map (fun b => (b.length, maxLen b))
      ~ (slicedBatches 4 3 s exsC7).map (fun b => (b.length, maxLen b)) := by
        unfold onePass
        exact (shuffle_perm (lcg s) (slicedBatches 4 3 s exsC7)).map _
    _ = [(4, 4), (4, 8), (2, 10)] := by rw [hsliced, hmain]

theorem c7_scenario_witness :
    (onePass 4 3 0 exsC7).map (fun b => (b.length, maxLen b))
      ~ [(4, 4), (4, 8), (2, 10)] :=
  c7_scenario 0

theorem vocabTail_mem_firstSeen {maxSize : Nat} {corpus : List (List String)}
    {t : String} (ht : t ∈ (buildVocab maxSize corpus).drop 2) :
    t ∈ firstSeen corpus :=
  (List.perm_insertionSort (vocabRank corpus) (firstSeen corpus)).mem_iff.mp
    (List.take_subset maxSize _ ht)

/-- C8: the vocabulary is a pure function of the training corpus alone
(never the validation or test split): it lists the reserved UNK and PAD
tokens at ids 0 and 1, holds at most maxSize corpus tokens beyond them —
all drawn from the training corpus — and ranks them by descending
frequency with frequency ties broken by first-seen order (equal-frequency
tokens are ordered by the position of their first occurrence in the
training corpus stream); as a pure value it is immutable after
construction. -/
theorem c8_vocabulary (maxSize : Nat) (corpus : List (List String)) :
    (buildVocab maxSize corpus).getD 0 "" = "<unk>"
    ∧ (buildVocab maxSize corpus).getD 1 "" = "<pad>"
    ∧ (buildVocab maxSize corpus).length ≤ maxSize + 2
    ∧ (∀ t ∈ (buildVocab maxSize corpus).drop 2, t ∈ corpus.flatten)
    ∧ ((buildVocab maxSize corpus).drop 2).Pairwise
        (fun t u => tokenFreq corpus u ≤ tokenFreq corpus t)
    ∧ ((buildVocab maxSize corpus).drop 2).Pairwise
        (fun t u => tokenFreq corpus t = tokenFreq corpus u →
          (firstSeen corpus).indexOf t ≤ (firstSeen corpus).indexOf u)
    ∧ ((buildVocab maxSize corpus).drop 2).Pairwise
        (fun t u => tokenFreq corpus t = tokenFreq corpus u →
          corpus.flatten.indexOf t ≤ corpus.flatten.indexOf u) := by
  have hrank : ((buildVocab maxSize corpus).drop 2).Pairwise (vocabRank corpus) := by
    show (((firstSeen corpus).insertionSort (vocabRank corpus)).take maxSize).Pairwise
      (vocabRank corpus)
    exact List.Pairwise.sublist (List.take_sublist maxSize _)
      (List.sorted_insertionSort (vocabRank corpus) (firstSeen corpus))
  refine ⟨rfl, rfl, ?_, ?_, ?_, ?_, ?_⟩
  · simp only [buildVocab, List.length_cons, List.length_take]
    omega
  · intro t ht
    exact mem_firstSeenList.mp (vocabTail_mem_firstSeen ht)
  · refine hrank.imp ?_
    intro t u h
    unfold vocabRank at h
    omega
  · refine hrank.imp ?_
    intro t u h
    unfold vocabRank at h
    omega
  · refine hrank.imp_of_mem ?_
    intro t u ht hu h heq
    have hidx : (firstSeen corpus).indexOf t ≤ (firstSeen corpus).indexOf u := by
      unfold vocabRank at h
      omega
    exact firstSeenList_indexOf_le corpus.flatten t u
      (vocabTail_mem_firstSeen ht) (vocabTail_mem_firstSeen hu) hidx

theorem c8_vocabulary_witness :
    (buildVocab 2 [["a", "b", "b", "a"]]).getD 0 "" = "<unk>"
    ∧ (buildVocab 2 [["a", "b", "b", "a"]]).getD 1 "" = "<pad>"
    ∧ (buildVocab 2 [["a", "b", "b", "a"]]).length ≤ 2 + 2
    ∧ (buildVocab 2 [["a", "b", "b", "a"]]).getD 2 "" = "a"
    ∧ (buildVocab 2 [["a", "b", "b", "a"]]).getD 3 "" = "b" :=
  ⟨(c8_vocabulary 2 [["a", "b", "b", "a"]]).1,
   (c8_vocabulary 2 [["a", "b", "b", "a"]]).2.1,
   (c8_vocabulary 2 [["a", "b", "b", "a"]]).2.2.1,
   by decide, by decide⟩

/-- C9: `evaluate` leaves the model parameters (including the embedding
weights, part of the abstract parameter value) unchanged: for every model,
metric functions and batch list, the parameters after the call equal the
parameters before it — the loop runs under `torch.no_grad()` and performs
no optimizer step. -/
theorem c9_evaluate_frame {P Pred : Type} (M : ModelOps P Pred)
    (crit accf : Pred → List Nat → Rat) (p : P) (bs : List Batch) :
    (evaluate M crit accf p bs).1 = p :=
  foldl_evalStep_params M crit accf bs ⟨p, 0, 0⟩

theorem c9_evaluate_frame_witness :
    (evaluate demoOps zeroMetric zeroMetric 5 [demoBatch]).1 = 5 :=
  c9_evaluate_frame demoOps zeroMetric zeroMetric 5 [demoBatch]

/-- C10: for every iterator yielding at least one batch, `train` and
`evaluate` return the arithmetic mean of the per-batch loss and of the
per-batch accuracy — the accumulated sums divided by the number of
batches (for `train`, along the parameter trajectory of the optimizer
steps); on an iterator with zero batches the unguarded final division
fails (modelled as `none`), which is why at least one batch is a
precondition. -/
theorem c10_epoch_means {P Pred : Type} (M : ModelOps P Pred)
    (crit accf : Pred → List Nat → Rat) (p : P) (bs : List Batch)
    (h : bs ≠ []) :
    (train M crit accf p bs).2
        = some ((((trainTrace M crit accf p bs).map Prod.fst).sum) / (bs.length : Rat),
                (((trainTrace M crit accf p bs).map Prod.snd).sum) / (bs.length : Rat))
    ∧ (evaluate M crit accf p bs).2
        = some (((bs.map (fun b => crit (M.forwardFn p b.texts) b.labels)).sum) / (bs.length : Rat),
                ((bs.map (fun b => accf (M.forwardFn p b.texts) b.labels)).sum) / (bs.length : Rat))
    ∧ (train M crit accf p []).2 = none
    ∧ (evaluate M crit accf p []).2 = none := by
  have hlen : bs.length ≠ 0 := fun h0 => h (List.eq_nil_of_length_eq_zero h0)
  refine ⟨?_, ?_, rfl, rfl⟩
  · show meanPair (bs.foldl (trainStep M crit accf) ⟨p, 0, 0⟩) bs.length = _
    have hf := foldl_trainStep_acc M crit accf bs p 0 0
    unfold meanPair
    rw [if_neg hlen, hf.1, hf.2]
    simp
  · show meanPair (bs.foldl (evalStep M crit accf) ⟨p, 0, 0⟩) bs.length = _
    have hf := foldl_evalStep_acc M crit accf bs ⟨p, 0, 0⟩
    unfold meanPair
    rw [if_neg hlen, hf.1, hf.2]
    simp

theorem c10_epoch_means_witness :
    ([demoBatch] : List Batch) ≠ []
    ∧ (train demoOps zeroMetric zeroMetric 5 [demoBatch]).2
        = some ((((trainTrace demoOps zeroMetric zeroMetric 5 [demoBatch]).map Prod.fst).sum)
                  / (([demoBatch] : List Batch).length : Rat),
                (((trainTrace demoOps zeroMetric zeroMetric 5 [demoBatch]).map Prod.snd).sum)
                  / (([demoBatch] : List Batch).length : Rat)) :=
  ⟨by decide,
   (c10_epoch_means demoOps zeroMetric zeroMetric 5 [demoBatch] (by decide)).1⟩

end SentimentBatching
